import Mathlib

/-!
Shallow embedding of the core of `Cython/Utils.py`: the memoization layer
(`cached_function`, `clear_method_caches`), versioned companion-file
resolution and package-directory classification (`find_versioned_file`,
`check_package_dir`, `find_root_package_dir`), scoped stream capture
(`captured_fd` with `_TryFinallyGeneratorContextManager`) and best-effort
decoding of captured bytes (`prepare_captured`).

Filesystem access is made explicit: a directory listing is a `List` of file
names, a filesystem is an oracle `List String → Bool` over component paths
(the role played by `os.path.exists` / `path_exists` in the source), and
bytes are `Nat` values.  File names handled character by character are
`List Char`.
-/

namespace CythonUtils

/-! ## MemoizationRegistry: `cached_function` (Utils.py lines 78-91) -/

/-- `cache.get(args, uncomputed)` over the wrapper's dict, modelled as an
association list searched front to back. -/
def cacheLookup {α β : Type} [DecidableEq α] : List (α × β) → α → Option β
  | [], _ => none
  | (k, v) :: rest, x => if x = k then some v else cacheLookup rest x

/-- One call of the wrapper produced by `cached_function` (Utils.py 84-88):
on a hit return the stored value; on a miss compute `f x`, store it under key
`x` and return it.  The final `Nat` counts how many times the wrapped `f`
ran during this call. -/
def cached_function_call {α β : Type} [DecidableEq α] (f : α → β)
    (cache : List (α × β)) (x : α) : β × List (α × β) × Nat :=
  match cacheLookup cache x with
  | some v => (v, cache, 0)
  | none => (f x, (x, f x) :: cache, 1)

/-- C2: calling a function memoized by `cached_function` twice with the same
argument tuple, starting from a cache that does not yet hold that tuple,
runs the underlying function exactly once in total, and both calls return
the same value, namely the cached `f x`. -/
theorem cached_function_spec {α β : Type} [DecidableEq α] (f : α → β)
    (cache : List (α × β)) (x : α) (h : cacheLookup cache x = none) :
    (cached_function_call f cache x).2.2
        + (cached_function_call f (cached_function_call f cache x).2.1 x).2.2 = 1
    ∧ (cached_function_call f (cached_function_call f cache x).2.1 x).1
        = (cached_function_call f cache x).1
    ∧ (cached_function_call f cache x).1 = f x := by
  simp [cached_function_call, cacheLookup, h]

/-- Witness for C2 at `f = Nat.succ`, empty cache, argument `0`. -/
theorem cached_function_spec_witness :
    (cached_function_call Nat.succ [] 0).2.2
        + (cached_function_call Nat.succ (cached_function_call Nat.succ [] 0).2.1 0).2.2 = 1
    ∧ (cached_function_call Nat.succ (cached_function_call Nat.succ [] 0).2.1 0).1
        = (cached_function_call Nat.succ [] 0).1
    ∧ (cached_function_call Nat.succ [] 0).1 = Nat.succ 0 :=
  cached_function_spec Nat.succ [] 0 rfl

/-! ## VersionedResolver: package-directory classification
(`contains_init`, `is_package_dir`, `check_package_dir`,
Utils.py lines 38, 239-260) -/

/-- The recognized package-marker file names (Utils.py line 38). -/
def PACKAGE_FILES : List String :=
  ["__init__.py", "__init__.pyc", "__init__.pyx", "__init__.pxd"]

/-- `contains_init` (Utils.py 250-255): a directory contains a marker iff one
of `PACKAGE_FILES` exists inside it.  `fs` is the `path_exists` oracle. -/
def contains_init (fs : List String → Bool) (dir_path : List String) : Bool :=
  PACKAGE_FILES.any fun filename => fs (dir_path ++ [filename])

/-- `is_package_dir` (Utils.py 258-260). -/
def is_package_dir (fs : List String → Bool) (dir_path : List String) : Bool :=
  contains_init fs dir_path

/-- Loop body of `check_package_dir` (Utils.py 242-246): join the next
package-name segment onto the path and clear the namespace flag when the
joined directory contains a marker. -/
def cpdStep (fs : List String → Bool) (st : List String × Bool)
    (dirname : String) : List String × Bool :=
  let d := st.1 ++ [dirname]
  (d, if contains_init fs d then false else st.2)

/-- `check_package_dir` (Utils.py 239-247). -/
def check_package_dir (fs : List String → Bool) (dir_path : List String)
    (package_names : List String) : List String × Bool :=
  package_names.foldl (cpdStep fs) (dir_path, true)

/-- Whether some successively joined segment directory contains a marker. -/
def anyInitAlong (fs : List String → Bool) (dir_path : List String) :
    List String → Bool
  | [] => false
  | n :: rest =>
      contains_init fs (dir_path ++ [n]) || anyInitAlong fs (dir_path ++ [n]) rest

theorem check_package_dir_fold (fs : List String → Bool) :
    ∀ (names : List String) (d : List String) (b : Bool),
      names.foldl (cpdStep fs) (d, b)
        = (d ++ names, b && !anyInitAlong fs d names) := by
  intro names
  induction names with
  | nil => intro d b; simp [anyInitAlong]
  | cons n rest ih =>
      intro d b
      simp only [List.foldl_cons, cpdStep, anyInitAlong]
      rw [ih]
      cases hc : contains_init fs (d ++ [n]) <;> simp [hc]

theorem anyInitAlong_eq_false_iff (fs : List String → Bool) :
    ∀ (names d : List String),
      anyInitAlong fs d names = false ↔
        ∀ i < names.length, contains_init fs (d ++ names.take (i + 1)) = false := by
  intro names
  induction names with
  | nil => intro d; simp [anyInitAlong]
  | cons n rest ih =>
      intro d
      rw [anyInitAlong, Bool.or_eq_false_iff, ih (d ++ [n])]
      constructor
      · rintro ⟨h0, hrest⟩ i hi
        cases i with
        | zero => simpa using h0
        | succ j =>
            have := hrest j (by simpa using hi)
            simpa [List.append_assoc] using this
      · intro h
        refine ⟨by simpa using h 0 (by simp), ?_⟩
        intro j hj
        have := h (j + 1) (by simpa using hj)
        simpa [List.append_assoc] using this

/-- Concrete filesystem for the C8 examples: the single marker file
base/pkg/__init__.py exists. -/
def fsMarker : List String → Bool := fun p =>
  decide (p = ["base", "pkg", "__init__.py"])

/-- C8: the namespace flag returned by `check_package_dir` is true iff no
recognized package-marker file exists in any of the successively joined
segment directories; the returned path is the full join.  In particular the
flag is true over an empty filesystem and false when a joined directory
contains a marker. -/
theorem check_package_dir_spec (fs : List String → Bool) (dir_path : List String)
    (package_names : List String) :
    ((check_package_dir fs dir_path package_names).2 = true ↔
        ∀ i < package_names.length,
          contains_init fs (dir_path ++ package_names.take (i + 1)) = false)
    ∧ (check_package_dir fs dir_path package_names).1 = dir_path ++ package_names
    ∧ (check_package_dir (fun _ => false) ["base"] ["pkg"]).2 = true
    ∧ (check_package_dir fsMarker ["base"] ["pkg"]).2 = false := by
  refine ⟨?_, ?_, by decide, by decide⟩
  · rw [check_package_dir, check_package_dir_fold, ← anyInitAlong_eq_false_iff]
    simp
  · rw [check_package_dir, check_package_dir_fold]

/-- C9: with an empty sequence of package names, `check_package_dir` returns
the input directory path unchanged together with namespace true, for every
filesystem. -/
theorem check_package_dir_empty_names (fs : List String → Bool)
    (dir_path : List String) :
    check_package_dir fs dir_path [] = (dir_path, true) := rfl

/-! ## VersionedResolver: `find_versioned_file` (Utils.py lines 288-318) -/

/-- Value of a non-empty decimal digit string, `int(versions[0])`. -/
def digitsToNat (ds : List Char) : Nat :=
  ds.foldl (fun n c => n * 10 + (c.toNat - 48)) 0

/-- Split a path at its last dot: `some (before, after)` when a dot exists,
`none` otherwise. -/
def splitAtLastDot (path : List Char) : Option (List Char × List Char) :=
  let r := path.reverse
  match r.dropWhile (fun c => c ≠ '.') with
  | [] => none
  | _ :: before => some (before.reverse, (r.takeWhile (fun c => c ≠ '.')).reverse)

/-- `_parse_file_version` (Utils.py 288): the anchored regex
`.*[.]cython-([0-9]+)[.][^./\x5c]+$` applied to a path, returning the digit
group of the single match when there is one.  The terminal `[^./\x5c]+`
segment is exactly the part after the last dot (it may not contain a dot),
and greediness forces the digit group to be the maximal digit run directly
before that dot, immediately preceded by the literal `.cython-`. -/
def parseFileVersion (path : List Char) : Option Nat :=
  match splitAtLastDot path with
  | none => none
  | some (before, after) =>
      if after.isEmpty || after.any (fun c => c = '/' || c = '\\') then none
      else
        let ds := (before.reverse.takeWhile Char.isDigit).reverse
        if ds.isEmpty then none
        else if (".cython-".toList).isSuffixOf (before.take (before.length - ds.length))
        then some (digitsToNat ds)
        else none

/-- fnmatch of the glob pattern `pre ++ "*" ++ suf` against a file name, with
`*` matching any (possibly empty) character sequence. -/
def globStarMatch (pre suf f : List Char) : Bool :=
  pre.isPrefixOf f && suf.isSuffixOf (f.drop pre.length)

/-- The hits of `glob.glob(path_prefix + ".cython-*" + suffix)` (Utils.py
305) over a directory listing, joined to full paths, in listing order. -/
def fvf_matching (files : List (List Char)) (directory filename suffix : List Char) :
    List (List Char) :=
  (files.filter fun f => globStarMatch (filename ++ ".cython-".toList) suffix f).map
    fun f => directory ++ '/' :: f

/-- Loop body of `find_versioned_file` (Utils.py 311-317): keep the entry
whenever its parsed version improves on the best rank so far while staying
at most the current toolchain version. -/
def fvfStep (current_version : Nat) (best : Int × Option (List Char))
    (path : List Char) : Int × Option (List Char) :=
  match parseFileVersion path with
  | some v =>
      if best.1 < (v : Int) ∧ (v : Int) ≤ (current_version : Int)
      then ((v : Int), some path) else best
  | none => best

/-- `find_versioned_file` (Utils.py 291-318) over an explicit directory
listing.  `os.path.flatten` is modelled as interposing a `/`; the unversioned
`filename ++ suffix` entry is the rank `-1` default when it is listed. -/
def find_versioned_file (files : List (List Char))
    (directory filename suffix : List Char) (current_version : Nat) :
    Option (List Char) :=
  ((fvf_matching files directory filename suffix).foldl (fvfStep current_version)
    (-1,
      if (filename ++ suffix) ∈ files
      then some (directory ++ '/' :: (filename ++ suffix)) else none)).2

theorem fvfStep_parse_some {cur : Nat} {b : Int} {d : Option (List Char)}
    {p : List Char} {v : Nat} (h : parseFileVersion p = some v) :
    fvfStep cur (b, d) p =
      if b < (v : Int) ∧ (v : Int) ≤ (cur : Int)
      then ((v : Int), some p) else (b, d) := by
  unfold fvfStep
  rw [h]

theorem fvfStep_parse_none {cur : Nat} {b : Int} {d : Option (List Char)}
    {p : List Char} (h : parseFileVersion p = none) :
    fvfStep cur (b, d) p = (b, d) := by
  unfold fvfStep
  rw [h]

/-- The versioned candidates that qualify: glob hits whose parsed version is
at most the current version, paired with that version. -/
def qualifying (current_version : Nat) (paths : List (List Char)) :
    List (Nat × List Char) :=
  paths.filterMap fun p =>
    match parseFileVersion p with
    | some v => if v ≤ current_version then some (v, p) else none
    | none => none

theorem mem_qualifying {cur : Nat} {paths : List (List Char)} {v : Nat}
    {p : List Char} :
    (v, p) ∈ qualifying cur paths ↔
      p ∈ paths ∧ parseFileVersion p = some v ∧ v ≤ cur := by
  simp only [qualifying, List.mem_filterMap]
  constructor
  · rintro ⟨a, ha, hf⟩
    cases hpv : parseFileVersion a with
    | none => simp [hpv] at hf
    | some w =>
        simp only [hpv] at hf
        by_cases hw : w ≤ cur
        · simp only [if_pos hw, Option.some.injEq, Prod.mk.injEq] at hf
          obtain ⟨hv, hp⟩ := hf
          subst hv
          subst hp
          exact ⟨ha, hpv, hw⟩
        · simp [if_neg hw] at hf
  · rintro ⟨hp, hpv, hv⟩
    exact ⟨p, hp, by simp [hpv, hv]⟩

theorem fvf_foldl_no_update (cur : Nat) :
    ∀ (l : List (List Char)) (b : Int) (d : Option (List Char)),
      (∀ p ∈ l, ∀ v, parseFileVersion p = some v → v ≤ cur → (v : Int) ≤ b) →
      l.foldl (fvfStep cur) (b, d) = (b, d) := by
  intro l
  induction l with
  | nil => intro b d _; rfl
  | cons a t ih =>
      intro b d hall
      have hstep : fvfStep cur (b, d) a = (b, d) := by
        cases hpv : parseFileVersion a with
        | none => exact fvfStep_parse_none hpv
        | some v =>
            rw [fvfStep_parse_some hpv]
            have hno : ¬(b < (v : Int) ∧ (v : Int) ≤ (cur : Int)) := by
              rintro ⟨h1, h2⟩
              have := hall a (List.mem_cons_self a t) v hpv (by exact_mod_cast h2)
              omega
            rw [if_neg hno]
      rw [List.foldl_cons, hstep]
      exact ih b d fun p hp => hall p (List.mem_cons_of_mem a hp)

theorem fvf_foldl_max (cur : Nat) :
    ∀ (l : List (List Char)) (b : Int) (d : Option (List Char)) (vs : Nat)
      (ps : List Char),
      parseFileVersion ps = some vs → vs ≤ cur → ps ∈ l →
      (∀ p ∈ l, ∀ v, parseFileVersion p = some v → v ≤ cur → p ≠ ps → v < vs) →
      b < (vs : Int) →
      l.foldl (fvfStep cur) (b, d) = ((vs : Int), some ps) := by
  intro l
  induction l with
  | nil => intro b d vs ps _ _ hmem _ _; exact absurd hmem (List.not_mem_nil ps)
  | cons a t ih =>
      intro b d vs ps hparse hle hmem hmax hb
      rw [List.foldl_cons]
      by_cases hap : a = ps
      · subst hap
        have hstep : fvfStep cur (b, d) a = ((vs : Int), some a) := by
          rw [fvfStep_parse_some hparse]
          have hc : b < (vs : Int) ∧ (vs : Int) ≤ (cur : Int) :=
            ⟨hb, by exact_mod_cast hle⟩
          rw [if_pos hc]
        rw [hstep]
        apply fvf_foldl_no_update
        intro p hp v hv hvle
        by_cases hpa : p = a
        · subst hpa
          rw [hparse] at hv
          injection hv with hveq
          omega
        · have := hmax p (List.mem_cons_of_mem a hp) v hv hvle hpa
          omega
      · have hps : ps ∈ t := by
          rcases List.mem_cons.mp hmem with h | h
          · exact absurd h.symm hap
          · exact h
        have hb' : (fvfStep cur (b, d) a).1 < (vs : Int) := by
          cases hpv : parseFileVersion a with
          | none => rw [fvfStep_parse_none hpv]; exact hb
          | some v =>
              rw [fvfStep_parse_some hpv]
              by_cases hcond : b < (v : Int) ∧ (v : Int) ≤ (cur : Int)
              · rw [if_pos hcond]
                have hvlt := hmax a (List.mem_cons_self a t) v hpv
                  (by exact_mod_cast hcond.2) hap
                show (v : Int) < (vs : Int)
                omega
              · rw [if_neg hcond]; exact hb
        rcases hfv : fvfStep cur (b, d) a with ⟨b', d'⟩
        rw [hfv] at hb'
        exact ih b' d' vs ps hparse hle hps
          (fun p hp => hmax p (List.mem_cons_of_mem a hp)) hb'

/-- Directory listing for the C1 example. -/
def exFiles : List (List Char) :=
  ["lib.pxd".toList, "lib.cython-29.pxd".toList, "lib.cython-31.pxd".toList]

/-- C1: `find_versioned_file` returns a qualifying versioned path whose
embedded version dominates every other qualifying candidate; when no
versioned file qualifies it returns the unversioned default exactly when
that file is listed, and `none` otherwise.  In particular, resolving
`("lib", ".pxd", 30)` over `lib.pxd, lib.cython-29.pxd, lib.cython-31.pxd`
yields `lib.cython-29.pxd`, and over an empty directory yields `none`. -/
theorem find_versioned_file_spec (files : List (List Char))
    (directory filename suffix : List Char) (cur : Nat) :
    (∀ vs ps,
        (vs, ps) ∈ qualifying cur (fvf_matching files directory filename suffix) →
        (∀ v p,
          (v, p) ∈ qualifying cur (fvf_matching files directory filename suffix) →
          p ≠ ps → v < vs) →
        find_versioned_file files directory filename suffix cur = some ps)
    ∧ (qualifying cur (fvf_matching files directory filename suffix) = [] →
        find_versioned_file files directory filename suffix cur =
          (if (filename ++ suffix) ∈ files
           then some (directory ++ '/' :: (filename ++ suffix)) else none))
    ∧ find_versioned_file exFiles ("d".toList) ("lib".toList) (".pxd".toList) 30
        = some ("d/lib.cython-29.pxd".toList)
    ∧ find_versioned_file [] ("d".toList) ("lib".toList) (".pxd".toList) 30
        = none := by
  refine ⟨?_, ?_, by decide, by decide⟩
  · intro vs ps hmem hmax
    obtain ⟨hp, hparse, hle⟩ := mem_qualifying.mp hmem
    unfold find_versioned_file
    rw [fvf_foldl_max cur (fvf_matching files directory filename suffix) (-1) _
      vs ps hparse hle hp ?_ (by omega)]
    intro p hpm v hv hvle hne
    exact hmax v p (mem_qualifying.mpr ⟨hpm, hv, hvle⟩) hne
  · intro hnil
    unfold find_versioned_file
    rw [fvf_foldl_no_update cur (fvf_matching files directory filename suffix)
      (-1) _ ?_]
    intro p hpm v hv hvle
    have hq : (v, p) ∈ qualifying cur (fvf_matching files directory filename suffix) :=
      mem_qualifying.mpr ⟨hpm, hv, hvle⟩
    rw [hnil] at hq
    exact absurd hq (List.not_mem_nil _)

/-- Witness for C1: both hypothesis-bearing branches exercised at concrete
inputs: the three-file example through the best-match branch, the empty
directory through the no-qualifier branch. -/
theorem find_versioned_file_spec_witness :
    find_versioned_file exFiles ("d".toList) ("lib".toList) (".pxd".toList) 30
        = some ("d/lib.cython-29.pxd".toList)
    ∧ find_versioned_file [] ("d".toList) ("lib".toList) (".pxd".toList) 30
        = (if ("lib".toList ++ ".pxd".toList) ∈ ([] : List (List Char))
           then some ("d".toList ++ '/' :: ("lib".toList ++ ".pxd".toList))
           else none) := by
  constructor
  · apply (find_versioned_file_spec exFiles ("d".toList) ("lib".toList)
      (".pxd".toList) 30).1 29 ("d/lib.cython-29.pxd".toList)
    · decide
    · intro v p hvp hne
      have hq : qualifying 30 (fvf_matching exFiles ("d".toList) ("lib".toList)
          (".pxd".toList)) = [(29, "d/lib.cython-29.pxd".toList)] := by decide
      rw [hq] at hvp
      rcases List.mem_singleton.mp hvp with h
      exact absurd (congrArg Prod.snd h) hne
  · exact (find_versioned_file_spec [] ("d".toList) ("lib".toList)
      (".pxd".toList) 30).2.1 (by decide)

/-! ## VersionedResolver: `find_root_package_dir` (Utils.py lines 228-236)

Paths are lists of components; `os.path.dirname` drops the last component,
and the `file_path == dir` fixpoint test of the source holds exactly at the
root `[]`.  To keep the function kernel-computable the recursion is phrased
on the reversed component list; `find_root_package_dir_eq` below recovers
the dirname-based recurrence of the source verbatim. -/

/-- Recursion worker for `find_root_package_dir`, consuming the reversed
path: dropping the head of the reversed list is `os.path.dirname`. -/
def frpdRev (fs : List String → Bool) : List String → List String
  | [] => []
  | _ :: dirRev =>
      if is_package_dir fs dirRev.reverse then frpdRev fs dirRev
      else dirRev.reverse

/-- `find_root_package_dir` (Utils.py 228-236). -/
def find_root_package_dir (fs : List String → Bool) (file_path : List String) :
    List String :=
  frpdRev fs file_path.reverse

/-- The source's recurrence: take the dirname; return it when the walk is at
the fixpoint (the root); recurse on it while it is a package directory;
return it otherwise. -/
theorem find_root_package_dir_eq (fs : List String → Bool) (fp : List String) :
    find_root_package_dir fs fp =
      if fp = fp.dropLast then fp.dropLast
      else if is_package_dir fs fp.dropLast
      then find_root_package_dir fs fp.dropLast
      else fp.dropLast := by
  induction fp using List.reverseRecOn with
  | nil => simp [find_root_package_dir, frpdRev]
  | append_singleton xs x _ =>
      have hne : xs ++ [x] ≠ (xs ++ [x]).dropLast := by
        rw [List.dropLast_concat]
        intro he
        have := congrArg List.length he
        simp at this
      rw [if_neg hne, List.dropLast_concat]
      show frpdRev fs (xs ++ [x]).reverse = _
      rw [List.reverse_append]
      simp [frpdRev, find_root_package_dir]

/-- Concrete filesystem for C3: directory a/b is a package (it holds
a/b/__init__.py), its parent a is not. -/
def fs0 : List String → Bool := fun p =>
  decide (p = ["a", "b", "__init__.py"] ∨ p = ["a", "b", "c.py"])

/-- C3 counterexample: for the file a/b/c.py the outermost ancestor still
marked as a package is a/b, but `find_root_package_dir` returns its parent
a — the first ancestor lacking a marker — so the claim's "returns the
outermost directory still marked as a package" is false at this input. -/
theorem find_root_package_dir_claim_cex :
    is_package_dir fs0 ["a", "b"] = true
    ∧ is_package_dir fs0 ["a"] = false
    ∧ find_root_package_dir fs0 ["a", "b", "c.py"] = ["a"]
    ∧ find_root_package_dir fs0 ["a", "b", "c.py"] ≠ ["a", "b"] := by
  decide

/-- C3 amended: starting from the file's parent directory, the walk goes up
while each ancestor is a package directory, and the function returns the
directory at which the walk stops: the first ancestor lacking a marker (the
parent of the outermost package directory), or the filesystem root when
every ancestor up to it is marked.  Formally: the result is the k-th
iterated dirname of the input for some k ≥ 1, all strictly earlier iterated
dirnames (from the parent on) are package directories, and the result is
the root or is not a package directory. -/
theorem find_root_package_dir_spec (fs : List String → Bool)
    (fp : List String) (h : fp ≠ []) :
    ∃ k, 1 ≤ k ∧ k ≤ fp.length ∧
      find_root_package_dir fs fp = List.dropLast^[k] fp ∧
      (∀ j, 1 ≤ j → j < k → is_package_dir fs (List.dropLast^[j] fp) = true) ∧
      (List.dropLast^[k] fp = [] ∨
        is_package_dir fs (List.dropLast^[k] fp) = false) := by
  revert h
  induction fp using List.reverseRecOn with
  | nil => intro h; exact absurd rfl h
  | append_singleton xs x ih =>
      intro _
      have hd1 : List.dropLast^[1] (xs ++ [x]) = xs := by
        simp [List.dropLast_concat]
      have heq : find_root_package_dir fs (xs ++ [x]) =
          if is_package_dir fs xs then find_root_package_dir fs xs else xs := by
        rw [find_root_package_dir_eq]
        have hne : xs ++ [x] ≠ (xs ++ [x]).dropLast := by
          rw [List.dropLast_concat]
          intro he
          have := congrArg List.length he
          simp at this
        rw [if_neg hne, List.dropLast_concat]
      by_cases hpkg : is_package_dir fs xs = true
      · by_cases hxs : xs = []
        · subst hxs
          refine ⟨1, le_refl 1, by simp, ?_, ?_, Or.inl (by simp [hd1])⟩
          · rw [heq, if_pos hpkg, hd1]
            rfl
          · intro j hj1 hj2
            omega
        · obtain ⟨k', hk1, hk2, hk3, hk4, hk5⟩ := ih hxs
          refine ⟨k' + 1, by omega, by simp; omega, ?_, ?_, ?_⟩
          · rw [heq, if_pos hpkg, hk3, Function.iterate_succ_apply,
              List.dropLast_concat]
          · intro j hj1 hj2
            cases j with
            | zero => omega
            | succ j' =>
                rw [Function.iterate_succ_apply, List.dropLast_concat]
                cases j' with
                | zero => simpa using hpkg
                | succ j'' => exact hk4 (j'' + 1) (by omega) (by omega)
          · rw [Function.iterate_succ_apply, List.dropLast_concat]
            exact hk5
      · refine ⟨1, le_refl 1, by simp, ?_, ?_, ?_⟩
        · rw [heq, if_neg hpkg, hd1]
        · intro j hj1 hj2
          omega
        · rw [hd1]
          exact Or.inr (by simpa using hpkg)

/-- Witness for C3 at the concrete filesystem `fs0` and file a/b/c.py. -/
theorem find_root_package_dir_spec_witness :
    (["a", "b", "c.py"] : List String) ≠ [] ∧
    ∃ k, 1 ≤ k ∧ k ≤ (["a", "b", "c.py"] : List String).length ∧
      find_root_package_dir fs0 ["a", "b", "c.py"]
        = List.dropLast^[k] (["a", "b", "c.py"] : List String) ∧
      (∀ j, 1 ≤ j → j < k →
        is_package_dir fs0 (List.dropLast^[j] (["a", "b", "c.py"] : List String))
          = true) ∧
      (List.dropLast^[k] (["a", "b", "c.py"] : List String) = [] ∨
        is_package_dir fs0 (List.dropLast^[k] (["a", "b", "c.py"] : List String))
          = false) :=
  ⟨by decide, find_root_package_dir_spec fs0 ["a", "b", "c.py"] (by decide)⟩

/-! ## StreamCapture: best-effort decoding
(`get_encoding_candidates`, `prepare_captured`, Utils.py lines 504-524)

Bytes are `Nat`s.  A codec is modelled by an oracle
`decode : String → List Nat → Option (List Char)`: `some text` when the
bytes decode losslessly under the named encoding, `none` when the decode
raises `UnicodeDecodeError`. -/

/-- The ASCII whitespace bytes removed by `bytes.strip()`. -/
def isSpaceByte (b : Nat) : Bool :=
  b = 32 || b = 9 || b = 10 || b = 11 || b = 12 || b = 13

/-- `captured.strip()` (Utils.py 515). -/
def stripBytes (bs : List Nat) : List Nat :=
  ((bs.dropWhile isSpaceByte).reverse.dropWhile isSpaceByte).reverse

/-- `captured_bytes.decode("latin-1")` (Utils.py 524): one character per
byte, total on every byte sequence. -/
def latin1Decode (bs : List Nat) : List Char :=
  bs.map Char.ofNat

/-- `get_encoding_candidates` (Utils.py 504-511): the process default
encoding followed by the encodings of the live and original standard
streams, skipping absent ones (`None`) and duplicates, in order. -/
def get_encoding_candidates (defaultEncoding : String)
    (streamEncodings : List (Option String)) : List String :=
  streamEncodings.foldl
    (fun acc enc =>
      match enc with
      | some e => if e ∈ acc then acc else acc ++ [e]
      | none => acc)
    [defaultEncoding]

/-- `prepare_captured` (Utils.py 514-524): strip the captured bytes, give up
with `none` when nothing remains, otherwise return the first candidate
encoding's lossless decoding, falling back to the total latin-1 decode. -/
def prepare_captured (decode : String → List Nat → Option (List Char))
    (candidates : List String) (captured : List Nat) : Option (List Char) :=
  if (stripBytes captured).isEmpty then none
  else
    match candidates.findSome? (fun e => decode e (stripBytes captured)) with
    | some s => some s
    | none => some (latin1Decode (stripBytes captured))

theorem exists_of_findSome?_eq_some {α β : Type} {f : α → Option β}
    {b : β} :
    ∀ {l : List α}, l.findSome? f = some b → ∃ a ∈ l, f a = some b := by
  intro l
  induction l with
  | nil => intro h; exact absurd h (by simp [List.findSome?])
  | cons a t ih =>
      intro h
      rw [List.findSome?_cons] at h
      cases hfa : f a with
      | some c =>
          rw [hfa] at h
          simp only [] at h
          exact ⟨a, List.mem_cons_self a t, by rw [hfa]; exact h⟩
      | none =>
          rw [hfa] at h
          simp only [] at h
          obtain ⟨a', ha', hfa'⟩ := ih h
          exact ⟨a', List.mem_cons_of_mem a ha', hfa'⟩

/-- Plain ASCII as a concrete codec: succeeds exactly on 7-bit byte input. -/
def asciiDecode (bs : List Nat) : Option (List Char) :=
  if bs.all (fun b => b < 128) then some (bs.map Char.ofNat) else none

/-- Concrete decode oracle knowing only the ASCII codec. -/
def asciiOracle : String → List Nat → Option (List Char) := fun e bs =>
  if e = "ascii" then asciiDecode bs else none

/-- C4 counterexample: the single byte 0x0A (the newline b"\n") is a
non-empty input, yet `prepare_captured` returns `none` — not a non-empty
string — because the input strips to nothing; so "for every non-empty byte
input it returns a non-empty string" is false at this input. -/
theorem prepare_captured_claim_cex :
    ([10] : List Nat) ≠ []
    ∧ prepare_captured asciiOracle (get_encoding_candidates "ascii" []) [10]
        = none := by
  decide

/-- C4 amended: `prepare_captured` is total (never raises) and returns
`none` exactly when the input strips to nothing, i.e. is empty or all
whitespace.  When a non-whitespace byte remains it returns the first
lossless candidate decoding, falling back to the single-byte-per-character
latin-1 decode, and — provided no candidate codec decodes non-empty bytes
to empty text — the result is a non-empty string. -/
theorem prepare_captured_spec (decode : String → List Nat → Option (List Char))
    (candidates : List String) (captured : List Nat)
    (hne : ∀ e ∈ candidates, ∀ bs : List Nat, bs ≠ [] → decode e bs ≠ some []) :
    (prepare_captured decode candidates captured = none ↔
        stripBytes captured = [])
    ∧ (∀ s, prepare_captured decode candidates captured = some s → s ≠ [])
    ∧ (stripBytes captured ≠ [] →
        prepare_captured decode candidates captured =
          some ((candidates.findSome?
              (fun e => decode e (stripBytes captured))).getD
            (latin1Decode (stripBytes captured)))) := by
  by_cases hstrip : stripBytes captured = []
  · have hres : prepare_captured decode candidates captured = none := by
      unfold prepare_captured
      rw [if_pos (by simp [hstrip])]
    refine ⟨by simp [hres, hstrip], ?_, fun hc => absurd hstrip hc⟩
    intro s hs
    rw [hres] at hs
    exact absurd hs (by simp)
  · have hemp : (stripBytes captured).isEmpty = false := by
      simpa [List.isEmpty_iff] using hstrip
    cases hfind : candidates.findSome? (fun e => decode e (stripBytes captured)) with
    | some s0 =>
        have hres : prepare_captured decode candidates captured = some s0 := by
          unfold prepare_captured
          rw [hemp, hfind]
          rfl
        refine ⟨by simp [hres, hstrip], ?_, fun _ => by simp [hres, hfind]⟩
        intro s hs
        rw [hres] at hs
        obtain rfl : s0 = s := by injection hs
        obtain ⟨e, he, hdec⟩ := exists_of_findSome?_eq_some hfind
        intro hnil
        subst hnil
        exact hne e he (stripBytes captured) hstrip hdec
    | none =>
        have hres : prepare_captured decode candidates captured =
            some (latin1Decode (stripBytes captured)) := by
          unfold prepare_captured
          rw [hemp, hfind]
          rfl
        refine ⟨by simp [hres, hstrip], ?_, fun _ => by simp [hres, hfind]⟩
        intro s hs
        rw [hres] at hs
        obtain rfl : latin1Decode (stripBytes captured) = s := by injection hs
        simpa [latin1Decode] using hstrip

/-- Decode oracle on which every candidate decode fails. -/
def noneOracle : String → List Nat → Option (List Char) := fun _ _ => none

/-- Witness for C4 at the byte b"A", a candidate list containing one
encoding, and an oracle failing on every candidate (forcing the latin-1
fallback). -/
theorem prepare_captured_spec_witness :
    (prepare_captured noneOracle ["utf-8"] [65] = none ↔ stripBytes [65] = [])
    ∧ prepare_captured noneOracle ["utf-8"] [65] =
        some (((["utf-8"] : List String).findSome?
            (fun e => noneOracle e (stripBytes [65]))).getD
          (latin1Decode (stripBytes [65]))) := by
  have h := prepare_captured_spec noneOracle ["utf-8"] [65]
    (fun e _ bs _ hc => by simp [noneOracle] at hc)
  exact ⟨h.1, h.2.2 (by decide)⟩

/-! ## MemoizationRegistry: `clear_method_caches`
(`_CACHE_NAME_PATTERN`, `_find_cache_attributes`, Utils.py lines 41, 94-113)

A Python object is modelled by the attribute names in its instance dict and
the attribute names reachable through its class.  `dir(obj)` lists both
(Python also sorts the list; the order only affects the processing order of
the loop and not its result under the hypotheses used below), `hasattr`
resolves through both, `delattr` removes from the instance dict only and
raises `AttributeError` — modelled as `Except.error` — when the name is not
an instance attribute. -/

/-- Attribute names visible on a Python object. -/
structure PyObj where
  instance_attrs : List (List Char)
  class_attrs : List (List Char)
deriving DecidableEq

/-- `hasattr(obj, name)`. -/
def hasattr (obj : PyObj) (name : List Char) : Bool :=
  decide (name ∈ obj.instance_attrs) || decide (name ∈ obj.class_attrs)

/-- `dir(obj)`: instance and class attribute names, deduplicated. -/
def dirList (obj : PyObj) : List (List Char) :=
  (obj.instance_attrs ++ obj.class_attrs).dedup

/-- `_CACHE_NAME_PATTERN.match(name).group(1)` for the anchored regex
`^__(.+)_cache$` (Utils.py 41): the greedy group is everything strictly
between the leading `__` and the trailing `_cache`, non-empty, so the name
must be at least 9 characters long. -/
def cacheNameMatch (name : List Char) : Option (List Char) :=
  if 9 ≤ name.length ∧ name.take 2 = ['_', '_']
      ∧ ("_cache".toList).isSuffixOf name
  then some ((name.drop 2).take (name.length - 8))
  else none

/-- `delattr(obj, name)`. -/
def delattr (obj : PyObj) (name : List Char) : Except Unit PyObj :=
  if name ∈ obj.instance_attrs
  then Except.ok
    { obj with instance_attrs := obj.instance_attrs.filter (fun a => a ≠ name) }
  else Except.error ()

/-- One iteration of the loop of `clear_method_caches` (Utils.py 109-111):
delete a cache-named attribute when the method name recovered from it still
resolves on the object. -/
def cmcStep (o : PyObj) (n : List Char) : Except Unit PyObj :=
  match cacheNameMatch n with
  | some m => if hasattr o m then delattr o n else Except.ok o
  | none => Except.ok o

/-- `clear_method_caches` (Utils.py 105-113): iterate over the `dir(obj)`
snapshot taken by `_find_cache_attributes`, deleting as above. -/
def clear_method_caches (obj : PyObj) : Except Unit PyObj :=
  (dirList obj).foldlM cmcStep obj

/-- The attributes the claim says are removed: cache-named attributes whose
recovered method name still resolves on the object. -/
def removableCache (obj : PyObj) (n : List Char) : Bool :=
  match cacheNameMatch n with
  | some m => hasattr obj m
  | none => false

/-- `removableCache` with resolution replaced by class membership; agrees
with `removableCache` whenever method names resolve through the class. -/
def removableCacheCls (obj : PyObj) (n : List Char) : Bool :=
  match cacheNameMatch n with
  | some m => decide (m ∈ obj.class_attrs)
  | none => false

theorem exceptOk_bind {α β γ : Type} (a : β) (f : β → Except α γ) :
    (Except.ok a >>= f) = f a := rfl

theorem cmc_fold (obj : PyObj) :
    ∀ (names : List (List Char)) (o : PyObj),
      names.Nodup →
      o.class_attrs = obj.class_attrs →
      (∀ a ∈ o.instance_attrs, a ∈ obj.instance_attrs) →
      (∀ n ∈ names, ∀ m, cacheNameMatch n = some m →
        hasattr obj m = decide (m ∈ obj.class_attrs)) →
      (∀ n ∈ names, removableCacheCls obj n = true → n ∈ o.instance_attrs) →
      names.foldlM cmcStep o =
        Except.ok
          ⟨o.instance_attrs.filter
              (fun a => !(decide (a ∈ names) && removableCacheCls obj a)),
            obj.class_attrs⟩ := by
  intro names
  induction names with
  | nil =>
      intro o _ hclass _ _ _
      have hfi : o.instance_attrs.filter
          (fun a => !(decide (a ∈ ([] : List (List Char)))
            && removableCacheCls obj a)) = o.instance_attrs := by
        simp
      rw [List.foldlM_nil, hfi, ← hclass]
      rfl
  | cons n names' ih =>
      intro o hnd hclass hsub hm hd
      obtain ⟨hnmem, hnd'⟩ := List.nodup_cons.mp hnd
      have hm' := fun p hp => hm p (List.mem_cons_of_mem n hp)
      have hmhead := fun m hme => hm n (List.mem_cons_self n names') m hme
      -- method resolution on the evolving object agrees with class lookup
      have hres : ∀ m, cacheNameMatch n = some m →
          hasattr o m = decide (m ∈ obj.class_attrs) := by
        intro m hme
        by_cases hmc : m ∈ obj.class_attrs
        · simp [hasattr, hclass, hmc]
        · have hobj := hmhead m hme
          have hni : m ∉ obj.instance_attrs := by
            intro hmi
            rw [show hasattr obj m = true from by simp [hasattr, hmi]] at hobj
            simp [hmc] at hobj
          have hno : m ∉ o.instance_attrs := fun hmo => hni (hsub m hmo)
          simp [hasattr, hclass, hmc, hno]
      rw [List.foldlM_cons]
      by_cases hrn : removableCacheCls obj n = true
      · -- the head attribute is deleted
        obtain ⟨m, hme, hmc⟩ : ∃ m, cacheNameMatch n = some m
            ∧ m ∈ obj.class_attrs := by
          unfold removableCacheCls at hrn
          cases hme : cacheNameMatch n with
          | none => rw [hme] at hrn; simp at hrn
          | some m =>
              rw [hme] at hrn
              simp only [decide_eq_true_eq] at hrn
              exact ⟨m, rfl, hrn⟩
        have hnin : n ∈ o.instance_attrs :=
          hd n (List.mem_cons_self n names') hrn
        have hstep : cmcStep o n = Except.ok
            { o with instance_attrs :=
              o.instance_attrs.filter (fun a => decide (a ≠ n)) } := by
          unfold cmcStep
          rw [hme]
          simp only []
          rw [show hasattr o m = true from by rw [hres m hme]; simp [hmc]]
          unfold delattr
          rw [if_pos hnin]
          simp
        rw [hstep, exceptOk_bind]
        have hclass' :
            (PyObj.mk (o.instance_attrs.filter (fun a => decide (a ≠ n)))
              o.class_attrs).class_attrs = obj.class_attrs := hclass
        have hsub' : ∀ a ∈ (PyObj.mk
              (o.instance_attrs.filter (fun a => decide (a ≠ n)))
              o.class_attrs).instance_attrs,
            a ∈ obj.instance_attrs := by
          intro a ha
          exact hsub a (List.mem_filter.mp ha).1
        have hd'' : ∀ p ∈ names', removableCacheCls obj p = true →
            p ∈ (PyObj.mk
              (o.instance_attrs.filter (fun a => decide (a ≠ n)))
              o.class_attrs).instance_attrs := by
          intro p hp hrp
          have hpo := hd p (List.mem_cons_of_mem n hp) hrp
          have hpn : p ≠ n := fun he => hnmem (he ▸ hp)
          exact List.mem_filter.mpr ⟨hpo, by simpa using hpn⟩
        rw [ih (PyObj.mk (o.instance_attrs.filter (fun a => decide (a ≠ n)))
          o.class_attrs) hnd' hclass' hsub' hm' hd'']
        refine congrArg Except.ok ?_
        refine congrArg (fun l => PyObj.mk l obj.class_attrs) ?_
        rw [List.filter_filter]
        apply List.filter_congr
        intro a _
        by_cases han : a = n
        · subst han
          simp [hrn]
        · simp [List.mem_cons, han]
      · -- the head attribute is kept
        have hstep : cmcStep o n = Except.ok o := by
          unfold cmcStep
          cases hme : cacheNameMatch n with
          | none => rfl
          | some m =>
              simp only []
              rw [show hasattr o m = false from by
                rw [hres m hme]
                unfold removableCacheCls at hrn
                rw [hme] at hrn
                simpa using hrn]
              rfl
        rw [hstep, exceptOk_bind]
        rw [ih o hnd' hclass hsub hm'
          (fun p hp hrp => hd p (List.mem_cons_of_mem n hp) hrp)]
        refine congrArg Except.ok ?_
        refine congrArg (fun l => PyObj.mk l obj.class_attrs) ?_
        apply List.filter_congr
        intro a _
        by_cases han : a = n
        · subst han
          simp [Bool.not_eq_true] at hrn
          simp [hrn]
        · simp [List.mem_cons, han]

/-- C5: under the caching discipline — method names recovered from
cache-named attributes resolve through the class (so deletions never change
resolution), and every removable cache-named attribute lives in the instance
dict (so `delattr` cannot raise) — `clear_method_caches` succeeds and
removes exactly the instance attributes matching the cache naming convention
whose method name still resolves on the object: cache-named attributes whose
method no longer resolves, and all other attributes, are left untouched, and
class attributes are never removed. -/
theorem clear_method_caches_spec (obj : PyObj)
    (hm : ∀ n ∈ dirList obj,
      (match cacheNameMatch n with
       | some m => hasattr obj m == decide (m ∈ obj.class_attrs)
       | none => true) = true)
    (hd : ∀ n ∈ dirList obj, removableCache obj n = true →
      n ∈ obj.instance_attrs) :
    clear_method_caches obj =
      Except.ok
        ⟨obj.instance_attrs.filter (fun a => !removableCache obj a),
          obj.class_attrs⟩ := by
  have hm' : ∀ n ∈ dirList obj, ∀ m, cacheNameMatch n = some m →
      hasattr obj m = decide (m ∈ obj.class_attrs) := by
    intro n hn m hme
    have h := hm n hn
    rw [hme] at h
    simpa using h
  have hrc : ∀ n ∈ dirList obj,
      removableCacheCls obj n = removableCache obj n := by
    intro n hn
    unfold removableCacheCls removableCache
    cases hme : cacheNameMatch n with
    | none => rfl
    | some m =>
        simp only []
        exact (hm' n hn m hme).symm
  unfold clear_method_caches
  rw [cmc_fold obj (dirList obj) obj
    (List.nodup_dedup (obj.instance_attrs ++ obj.class_attrs))
    rfl (fun a ha => ha) hm'
    (fun n hn hrn => hd n hn ((hrc n hn).symm.trans hrn))]
  refine congrArg Except.ok ?_
  refine congrArg (fun l => PyObj.mk l obj.class_attrs) ?_
  apply List.filter_congr
  intro a ha
  have hadir : a ∈ dirList obj :=
    List.mem_dedup.mpr (List.mem_append_left _ ha)
  rw [hrc a hadir]
  simp [hadir]

/-- Concrete object for the C5 witness: instance attributes __foo_cache,
data and __bar_cache; the class provides the method foo but no bar. -/
def obj0 : PyObj :=
  ⟨["__foo_cache".toList, "data".toList, "__bar_cache".toList],
    ["foo".toList]⟩

/-- Witness for C5 at `obj0`: __foo_cache is removed (foo resolves), while
data and __bar_cache (bar does not resolve) survive. -/
theorem clear_method_caches_spec_witness :
    clear_method_caches obj0 =
      Except.ok
        ⟨obj0.instance_attrs.filter (fun a => !removableCache obj0 a),
          obj0.class_attrs⟩ :=
  clear_method_caches_spec obj0 (by decide) (by decide)

/-! ## StreamCapture: `captured_fd` and the context-manager protocol
(`_TryFinallyGeneratorContextManager`, Utils.py lines 46-67 and 480-501)

The relevant operating-system state of one capture session is made
explicit: what the captured stream slot currently refers to after `dup2`,
the bytes at the original destination, the content and open flag of the
temporary backing file, whether the `os.dup` duplicate of the original
destination is still open, and the `_output[0]` cache of `read_output`.
The temporary file is opened in append mode (`"a+b"`), so writes through
the redirected slot always go to its end and reading does not disturb
subsequent writes. -/

/-- What the captured stream slot currently refers to. -/
inductive StreamTarget
  | orig
  | temp
deriving DecidableEq

/-- State of one `captured_fd` session. -/
structure CapState where
  streamTarget : StreamTarget
  origWritten : List Nat
  tempContent : List Nat
  tempOpen : Bool
  origDupOpen : Bool
  cachedOutput : List Nat
deriving DecidableEq

/-- A state with no capture in progress and nothing written anywhere. -/
def initState : CapState :=
  ⟨StreamTarget.orig, [], [], false, false, []⟩

/-- The generator body up to the yield (Utils.py 482-496): duplicate the
original stream destination, create a fresh temporary backing file,
initialize the `read_output` cache to b'' and redirect the stream slot onto
the backing file. -/
def captured_fd_enter (s : CapState) : CapState :=
  { s with
    streamTarget := StreamTarget.temp,
    tempContent := [],
    tempOpen := true,
    origDupOpen := true,
    cachedOutput := [] }

/-- A write through the captured stream slot: to the original destination or
to the (append-mode) backing file, depending on the current redirection. -/
def writeStream (s : CapState) (bs : List Nat) : CapState :=
  match s.streamTarget with
  | StreamTarget.orig => { s with origWritten := s.origWritten ++ bs }
  | StreamTarget.temp =>
      if s.tempOpen then { s with tempContent := s.tempContent ++ bs } else s

/-- A sequence of writes through the captured stream slot. -/
def writeAll (s : CapState) (ws : List (List Nat)) : CapState :=
  ws.foldl writeStream s

/-- `read_output` (Utils.py 485-489): while the backing file is open, seek
to the start, read everything and cache it; once it is closed, return the
cache.  This is also `get_output`, the `retrieve` function handed to the
caller, in its bytes form (`encoding=None`). -/
def read_output (s : CapState) : List Nat × CapState :=
  if s.tempOpen then (s.tempContent, { s with cachedOutput := s.tempContent })
  else (s.cachedOutput, s)

/-- Resuming the generator past the yield (Utils.py 497-501).  When the
`dup2` restoring the original destination succeeds: restore the slot, cache
the final output via `read_output`, close the backing file on leaving the
with-block, and close the preserved duplicate in the `finally`.  When the
restoring `dup2` raises: the with-block still closes the backing file, the
`finally` still closes the duplicate, and the failure propagates out of
`next()` (second component `true`). -/
def captured_fd_resume (s : CapState) (restore_ok : Bool) : CapState × Bool :=
  if restore_ok then
    ({ (read_output { s with streamTarget := StreamTarget.orig }).2 with
        tempOpen := false, origDupOpen := false }, false)
  else
    ({ s with tempOpen := false, origDupOpen := false }, true)

/-- `_TryFinallyGeneratorContextManager.__exit__` (Utils.py 56-61): it calls
`next(self._gen)` regardless of whether an exception is pending, swallowing
only the generator's own `StopIteration`/`GeneratorExit`, and returns a
falsy value so a pending exception keeps propagating. -/
def cm_exit (_excPending : Bool) (s : CapState) (restore_ok : Bool) :
    CapState × Bool :=
  captured_fd_resume s restore_ok

theorem writeAll_temp (s : CapState) (h1 : s.streamTarget = StreamTarget.temp)
    (h2 : s.tempOpen = true) :
    ∀ ws : List (List Nat),
      writeAll s ws = { s with tempContent := s.tempContent ++ ws.flatten } := by
  intro ws
  induction ws generalizing s with
  | nil => simp [writeAll]
  | cons bs rest ih =>
      have hw : writeStream s bs = { s with tempContent := s.tempContent ++ bs } := by
        unfold writeStream
        rw [h1]
        simp [h2]
      rw [writeAll, List.foldl_cons, hw, ← writeAll,
        ih { s with tempContent := s.tempContent ++ bs } h1 h2]
      simp

/-- C6: however the protected region of a `captured_fd` scope exits —
normal completion or a pending exception, `excPending` being ignored by
`__exit__` — the duplicate descriptor preserving the original stream
destination is closed; and when the restoring `dup2` itself fails, the
duplicate is still closed and the restoration failure propagates to the
caller. -/
theorem captured_fd_exit_spec (excPending restore_ok : Bool) (s : CapState) :
    (cm_exit excPending s restore_ok).1.origDupOpen = false
    ∧ (restore_ok = false → (cm_exit excPending s restore_ok).2 = true) := by
  cases restore_ok
  · exact ⟨rfl, fun _ => rfl⟩
  · exact ⟨rfl, fun h => by simp at h⟩

/-- Witness for C6 inside a freshly entered scope, with a pending exception
and a failing restore. -/
theorem captured_fd_exit_spec_witness :
    (cm_exit true (captured_fd_enter initState) false).1.origDupOpen = false
    ∧ (cm_exit true (captured_fd_enter initState) false).2 = true :=
  ⟨(captured_fd_exit_spec true false (captured_fd_enter initState)).1,
    (captured_fd_exit_spec true false (captured_fd_enter initState)).2 rfl⟩

/-- C7: retrieval mid-scope returns exactly the bytes written so far and
leaves the still-open backing store undisturbed; after scope exit the
stream slot is redirected back to the original destination, retrieval
returns the final captured content from the read cached at exit even though
the backing file is closed, and further writes go to the original
destination while the captured content stays unchanged. -/
theorem captured_fd_retrieve_spec (pre : CapState) (ws1 ws2 : List (List Nat))
    (extra : List Nat) (excPending : Bool) :
    (read_output (writeAll (captured_fd_enter pre) ws1)).1 = ws1.flatten
    ∧ (read_output (writeAll (captured_fd_enter pre) ws1)).2.tempContent
        = (writeAll (captured_fd_enter pre) ws1).tempContent
    ∧ (read_output (writeAll (captured_fd_enter pre) ws1)).2.tempOpen = true
    ∧ (read_output (cm_exit excPending
          (writeAll (read_output (writeAll (captured_fd_enter pre) ws1)).2 ws2)
          true).1).1 = ws1.flatten ++ ws2.flatten
    ∧ (cm_exit excPending
          (writeAll (read_output (writeAll (captured_fd_enter pre) ws1)).2 ws2)
          true).1.tempOpen = false
    ∧ (cm_exit excPending
          (writeAll (read_output (writeAll (captured_fd_enter pre) ws1)).2 ws2)
          true).1.streamTarget = StreamTarget.orig
    ∧ (writeStream (cm_exit excPending
          (writeAll (read_output (writeAll (captured_fd_enter pre) ws1)).2 ws2)
          true).1 extra).origWritten
        = (cm_exit excPending
            (writeAll (read_output (writeAll (captured_fd_enter pre) ws1)).2 ws2)
            true).1.origWritten ++ extra
    ∧ (writeStream (cm_exit excPending
          (writeAll (read_output (writeAll (captured_fd_enter pre) ws1)).2 ws2)
          true).1 extra).tempContent
        = (cm_exit excPending
            (writeAll (read_output (writeAll (captured_fd_enter pre) ws1)).2 ws2)
            true).1.tempContent := by
  have hA : writeAll (captured_fd_enter pre) ws1
      = ⟨StreamTarget.temp, pre.origWritten, ws1.flatten, true, true, []⟩ := by
    rw [writeAll_temp (captured_fd_enter pre) rfl rfl ws1]
    simp [captured_fd_enter]
  rw [hA]
  have hMid : read_output
      (⟨StreamTarget.temp, pre.origWritten, ws1.flatten, true, true, []⟩ : CapState)
      = (ws1.flatten,
        ⟨StreamTarget.temp, pre.origWritten, ws1.flatten, true, true, ws1.flatten⟩) := rfl
  rw [hMid]
  have hB : writeAll
      (⟨StreamTarget.temp, pre.origWritten, ws1.flatten, true, true, ws1.flatten⟩ : CapState)
      ws2
      = ⟨StreamTarget.temp, pre.origWritten, ws1.flatten ++ ws2.flatten, true, true,
          ws1.flatten⟩ := by
    rw [writeAll_temp _ rfl rfl ws2]
  rw [hB]
  exact ⟨rfl, rfl, rfl, rfl, rfl, rfl, rfl, rfl⟩

/-- C10: the exit handler behaves identically whether or not an exception
is pending (it resumes the generator past the yield either way), so on
exceptional exit with a successful restore the stream slot is redirected
back to the original destination, the accumulated bytes are read and cached
before the backing file is discarded, the preserved duplicate is closed,
and retrieval after exit still returns the captured content. -/
theorem captured_fd_exceptional_exit_spec (s : CapState) (restore_ok : Bool)
    (h : s.tempOpen = true) :
    cm_exit true s restore_ok = cm_exit false s restore_ok
    ∧ (cm_exit true s true).1.streamTarget = StreamTarget.orig
    ∧ (cm_exit true s true).1.cachedOutput = s.tempContent
    ∧ (cm_exit true s true).1.tempOpen = false
    ∧ (cm_exit true s true).1.origDupOpen = false
    ∧ (read_output (cm_exit true s true).1).1 = s.tempContent := by
  refine ⟨rfl, ?_, ?_, ?_, ?_, ?_⟩ <;>
    simp [cm_exit, captured_fd_resume, read_output, h]

/-- Witness for C10 inside a freshly entered scope. -/
theorem captured_fd_exceptional_exit_witness :
    (captured_fd_enter initState).tempOpen = true
    ∧ (cm_exit true (captured_fd_enter initState) false
        = cm_exit false (captured_fd_enter initState) false
      ∧ (cm_exit true (captured_fd_enter initState) true).1.streamTarget
          = StreamTarget.orig
      ∧ (cm_exit true (captured_fd_enter initState) true).1.cachedOutput
          = (captured_fd_enter initState).tempContent
      ∧ (cm_exit true (captured_fd_enter initState) true).1.tempOpen = false
      ∧ (cm_exit true (captured_fd_enter initState) true).1.origDupOpen = false
      ∧ (read_output (cm_exit true (captured_fd_enter initState) true).1).1
          = (captured_fd_enter initState).tempContent) :=
  ⟨rfl, captured_fd_exceptional_exit_spec (captured_fd_enter initState) false rfl⟩

end CythonUtils
